import Mathlib

/-!
# Verification of the koyo-finance contracts-monorepo specification

Shallow embedding of the parts of the repository the claims are about:

* `WordCodec` — bit-field insertion/extraction on 256-bit storage words
  (`WordCodec.sol` / `WordCodecExternal.sol`, not included under `src/`;
  modelled from the spec's description of the bit-packed storage slots).
* `MetaStablePoolOracleMiscData` — the bit-packed oracle misc-data codec
  (`src/pkg/pools/metas/contracts/stable/MetaStablePoolOracleMiscData.sol`).
* `BaseTokenlessPool` — swap-fee bounds, the shared misc-data storage slot
  and the immutable constructor-only state (same source file).
* `ProtocolFeesWithdrawer` — the withdrawal safety layer with its denylist
  (`src/pkg/standalone-utils/contracts/ProtocolFeesWithdrawer.sol`).
* `ContractDeployment` — the TypeScript `linkBytecode` helper.
* `HardhatConfig` — the Solidity compiler-configuration `overrides` helper.

Machine words are `Nat` with explicit `% 2 ^ w` arithmetic; reverting
operations return `Except`; JavaScript strings are `List Char`.
-/

namespace Koyo

namespace WordCodec

/-- Modelled from the spec: `WordCodec.insertUint` (from
`@koyofinance/exchange-vault-solidity-utils/contracts/helpers/WordCodec.sol`,
a dependency of the repository not included under `src/`).  It clears the
`bitLength` bits of `word` starting at bit `offset` and writes `value`
(truncated to `bitLength` bits) there, leaving all other bits unchanged.
Arithmetically: the bits below `offset` are `word % 2 ^ offset`, the field
becomes `value % 2 ^ bitLength`, and the bits at and above
`offset + bitLength` are `word / 2 ^ (offset + bitLength)`. -/
def insertUint (word value offset bitLength : Nat) : Nat :=
  word % 2 ^ offset
    + value % 2 ^ bitLength * 2 ^ offset
    + word / 2 ^ (offset + bitLength) * 2 ^ (offset + bitLength)

/-- Modelled from the spec: `WordCodec.decodeUint`; reads the `bitLength`
bits of `word` starting at bit `offset`. -/
def decodeUint (word offset bitLength : Nat) : Nat :=
  word / 2 ^ offset % 2 ^ bitLength

/-- Modelled from the spec: `WordCodec.insertInt`; stores the two's
complement representation (`value mod 2 ^ bitLength`) in the field. -/
def insertInt (word : Nat) (value : Int) (offset bitLength : Nat) : Nat :=
  insertUint word (value % (2 : Int) ^ bitLength).toNat offset bitLength

/-- Modelled from the spec: `WordCodec.decodeInt`; reads the field as an
unsigned value and sign-extends: values above the maximal signed value
`2 ^ (bitLength - 1) - 1` represent negatives. -/
def decodeInt (word offset bitLength : Nat) : Int :=
  if 2 ^ (bitLength - 1) - 1 < decodeUint word offset bitLength then
    (decodeUint word offset bitLength : Int) - (2 : Int) ^ bitLength
  else (decodeUint word offset bitLength : Int)

/-- Modelled from the spec: `WordCodec.insertBool`; stores the boolean in
the single bit at `offset`. -/
def insertBool (word : Nat) (value : Bool) (offset : Nat) : Nat :=
  insertUint word (if value then 1 else 0) offset 1

/-- Modelled from the spec: `WordCodec.decodeBool`; reads the single bit at
`offset`. -/
def decodeBool (word offset : Nat) : Bool :=
  decodeUint word offset 1 == 1

/-- Modelled from the spec: `WordCodec.insertBits192`; inserts the
least-significant 192 bits of `value` at bit `offset` of `word`. -/
def insertBits192 (word value offset : Nat) : Nat :=
  insertUint word value offset 192

theorem wc_two_pow_pos (n : Nat) : 0 < 2 ^ n := Nat.pos_pow_of_pos n (by omega)

theorem wc_insertUint_decomp (w v o l : Nat) :
    insertUint w v o l
      = w % 2 ^ o + 2 ^ o * (v % 2 ^ l + 2 ^ l * (w / 2 ^ (o + l))) := by
  unfold insertUint
  rw [pow_add]
  ring

/-- Reading back the field that was just written returns the written value
modulo the field width. -/
theorem wc_decodeUint_insertUint_self (w v o l : Nat) :
    decodeUint (insertUint w v o l) o l = v % 2 ^ l := by
  unfold decodeUint
  rw [wc_insertUint_decomp, Nat.add_mul_div_left _ _ (wc_two_pow_pos o),
    Nat.div_eq_of_lt (Nat.mod_lt _ (wc_two_pow_pos o)), Nat.zero_add,
    Nat.add_mul_mod_self_left, Nat.mod_mod_of_dvd _ dvd_rfl]

/-- Bits strictly below the written field are unchanged by `insertUint`. -/
theorem wc_insertUint_mod (w v o l k : Nat) (hk : k ≤ o) :
    insertUint w v o l % 2 ^ k = w % 2 ^ k := by
  have hsplit : (2 : Nat) ^ o = 2 ^ k * 2 ^ (o - k) := by
    rw [← pow_add]
    congr 1
    omega
  rw [wc_insertUint_decomp, hsplit, Nat.mul_assoc, Nat.add_mul_mod_self_left,
    ← hsplit, Nat.mod_mod_of_dvd _ ⟨2 ^ (o - k), hsplit⟩]

theorem wc_insertUint_low_lt (w v o l : Nat) :
    w % 2 ^ o + v % 2 ^ l * 2 ^ o < 2 ^ (o + l) := by
  have h1 : w % 2 ^ o < 2 ^ o := Nat.mod_lt _ (wc_two_pow_pos o)
  have h2 : v % 2 ^ l < 2 ^ l := Nat.mod_lt _ (wc_two_pow_pos l)
  have h3 : (v % 2 ^ l + 1) * 2 ^ o ≤ 2 ^ (o + l) := by
    rw [pow_add, Nat.mul_comm (2 ^ o) (2 ^ l)]
    exact Nat.mul_le_mul_right _ (Nat.succ_le_of_lt h2)
  have h4 : v % 2 ^ l * 2 ^ o + 2 ^ o = (v % 2 ^ l + 1) * 2 ^ o := by ring
  omega

/-- Bits at and above the end of the written field are unchanged. -/
theorem wc_insertUint_div (w v o l m : Nat) (hm : o + l ≤ m) :
    insertUint w v o l / 2 ^ m = w / 2 ^ m := by
  have hbase : insertUint w v o l / 2 ^ (o + l) = w / 2 ^ (o + l) := by
    unfold insertUint
    rw [Nat.add_mul_div_right _ _ (wc_two_pow_pos (o + l)),
      Nat.div_eq_of_lt (wc_insertUint_low_lt w v o l), Nat.zero_add]
  have hsplit : (2 : Nat) ^ m = 2 ^ (o + l) * 2 ^ (m - (o + l)) := by
    rw [← pow_add]
    congr 1
    omega
  rw [hsplit, ← Nat.div_div_eq_div_mul, hbase, Nat.div_div_eq_div_mul]

theorem wc_decodeUint_eq_of_mod_eq (x y o l : Nat)
    (h : x % 2 ^ (o + l) = y % 2 ^ (o + l)) :
    decodeUint x o l = decodeUint y o l := by
  have key : ∀ z : Nat, decodeUint z o l = z % 2 ^ (o + l) / 2 ^ o % 2 ^ l := by
    intro z
    unfold decodeUint
    conv_lhs => rw [← Nat.div_add_mod z (2 ^ (o + l))]
    rw [pow_add, Nat.mul_assoc, Nat.mul_add_div (wc_two_pow_pos o),
      Nat.mul_add_mod]
  rw [key x, key y, h]

/-- Frame property of `insertUint`: reading a bit range disjoint from the
written one (entirely above it or entirely below it) is unaffected. -/
theorem wc_decodeUint_frame (w v o1 l1 o2 l2 : Nat)
    (h : o1 + l1 ≤ o2 ∨ o2 + l2 ≤ o1) :
    decodeUint (insertUint w v o1 l1) o2 l2 = decodeUint w o2 l2 := by
  rcases h with habove | hbelow
  · unfold decodeUint
    rw [wc_insertUint_div w v o1 l1 o2 (by omega)]
  · exact wc_decodeUint_eq_of_mod_eq _ _ _ _
      (wc_insertUint_mod w v o1 l1 (o2 + l2) hbelow)

theorem wc_decodeInt_frame (w v o1 l1 o2 l2 : Nat)
    (h : o1 + l1 ≤ o2 ∨ o2 + l2 ≤ o1) :
    decodeInt (insertUint w v o1 l1) o2 l2 = decodeInt w o2 l2 := by
  unfold decodeInt
  rw [wc_decodeUint_frame w v o1 l1 o2 l2 h]

theorem wc_decodeBool_frame (w v o1 l1 o2 : Nat)
    (h : o1 + l1 ≤ o2 ∨ o2 + 1 ≤ o1) :
    decodeBool (insertUint w v o1 l1) o2 = decodeBool w o2 := by
  unfold decodeBool
  rw [wc_decodeUint_frame w v o1 l1 o2 1 h]

/-- Unsigned round-trip: inserting an in-range value and reading it back
returns the value. -/
theorem wc_decodeUint_insertUint (w v o l : Nat) (hv : v < 2 ^ l) :
    decodeUint (insertUint w v o l) o l = v := by
  rw [wc_decodeUint_insertUint_self, Nat.mod_eq_of_lt hv]

/-- Signed round-trip for 22-bit fields (both signed fields of the codec
are 22 bits wide): inserting a value in `[-2^21, 2^21)` and reading it
back returns the value. -/
theorem wc_decodeInt_insertInt22 (w : Nat) (v : Int) (o : Nat)
    (h1 : -(2 ^ 21) ≤ v) (h2 : v < 2 ^ 21) :
    decodeInt (insertInt w v o 22) o 22 = v := by
  unfold insertInt decodeInt
  rw [wc_decodeUint_insertUint_self]
  norm_num at h1 h2 ⊢
  split <;> omega

/-- Boolean round-trip. -/
theorem wc_decodeBool_insertBool (w : Nat) (b : Bool) (o : Nat) :
    decodeBool (insertBool w b o) o = b := by
  unfold decodeBool insertBool
  rw [wc_decodeUint_insertUint_self]
  cases b <;> rfl

end WordCodec

/-!
## `MetaStablePoolOracleMiscData`

Embedding of the library in
`src/pkg/pools/metas/contracts/stable/MetaStablePoolOracleMiscData.sol`.
The storage word layout is
`[ not used | oracle enabled | oracle index | sample timestamp | log supply | log invariant ]`
`[ uint170  |      bool      |    uint10    |      uint31      |   int22    |     int22     ]`.
-/

namespace MetaStablePoolOracleMiscData

def _LOG_INVARIANT_OFFSET : Nat := 0

def _LOG_TOTAL_SUPPLY_OFFSET : Nat := 22

def _ORACLE_SAMPLE_CREATION_TIMESTAMP_OFFSET : Nat := 44

def _ORACLE_INDEX_OFFSET : Nat := 75

def _ORACLE_ENABLED_OFFSET : Nat := 85

/-- `logInvariant(bytes32 data)`: the cached logarithm of the invariant. -/
def logInvariant (data : Nat) : Int :=
  WordCodec.decodeInt data _LOG_INVARIANT_OFFSET 22

/-- `logTotalSupply(bytes32 data)`: the cached logarithm of the supply. -/
def logTotalSupply (data : Nat) : Int :=
  WordCodec.decodeInt data _LOG_TOTAL_SUPPLY_OFFSET 22

/-- `oracleSampleCreationTimestamp(bytes32 data)`. -/
def oracleSampleCreationTimestamp (data : Nat) : Nat :=
  WordCodec.decodeUint data _ORACLE_SAMPLE_CREATION_TIMESTAMP_OFFSET 31

/-- `oracleIndex(bytes32 data)`. -/
def oracleIndex (data : Nat) : Nat :=
  WordCodec.decodeUint data _ORACLE_INDEX_OFFSET 10

/-- `oracleEnabled(bytes32 data)`. -/
def oracleEnabled (data : Nat) : Bool :=
  WordCodec.decodeBool data _ORACLE_ENABLED_OFFSET

/-- `setLogInvariant(bytes32 data, int256 _logInvariant)`. -/
def setLogInvariant (data : Nat) (v : Int) : Nat :=
  WordCodec.insertInt data v _LOG_INVARIANT_OFFSET 22

/-- `setLogTotalSupply(bytes32 data, int256 _logTotalSupply)`. -/
def setLogTotalSupply (data : Nat) (v : Int) : Nat :=
  WordCodec.insertInt data v _LOG_TOTAL_SUPPLY_OFFSET 22

/-- `setOracleSampleCreationTimestamp(bytes32 data, uint256 _initialTimestamp)`. -/
def setOracleSampleCreationTimestamp (data : Nat) (v : Nat) : Nat :=
  WordCodec.insertUint data v _ORACLE_SAMPLE_CREATION_TIMESTAMP_OFFSET 31

/-- `setOracleIndex(bytes32 data, uint256 _oracleIndex)`. -/
def setOracleIndex (data : Nat) (v : Nat) : Nat :=
  WordCodec.insertUint data v _ORACLE_INDEX_OFFSET 10

/-- `setOracleEnabled(bytes32 data, bool _oracleEnabled)`. -/
def setOracleEnabled (data : Nat) (v : Bool) : Nat :=
  WordCodec.insertBool data v _ORACLE_ENABLED_OFFSET

end MetaStablePoolOracleMiscData

/-!
## `BaseTokenlessPool`

Embedding of the swap-fee and misc-data logic of the abstract contract
`BaseTokenlessPool` (second part of the `MetaStablePoolOracleMiscData.sol`
source file).  The misc-data storage slot is a 256-bit word whose
most-significant 64 bits hold the swap-fee percentage.
-/

namespace BaseTokenlessPool

def _MIN_SWAP_FEE_PERCENTAGE : Nat := 10 ^ 12

def _MAX_SWAP_FEE_PERCENTAGE : Nat := 10 ^ 17

def _SWAP_FEE_PERCENTAGE_OFFSET : Nat := 192

/-- Error codes of `BalancerErrors` raised by `_setSwapFeePercentage`. -/
inductive Errors where
  | MIN_SWAP_FEE_PERCENTAGE
  | MAX_SWAP_FEE_PERCENTAGE
deriving DecidableEq, Repr

/-- `getSwapFeePercentage()`: decodes the most-significant 64 bits of the
misc-data word. -/
def getSwapFeePercentage (miscData : Nat) : Nat :=
  WordCodec.decodeUint miscData _SWAP_FEE_PERCENTAGE_OFFSET 64

/-- `_setSwapFeePercentage(uint256)`: checks the bounds (reverting with the
corresponding error code) and stores the fee in the top 64 bits of the
misc-data word.  Returns the updated word on success. -/
def _setSwapFeePercentage (miscData fee : Nat) : Except Errors Nat :=
  if fee < _MIN_SWAP_FEE_PERCENTAGE then .error .MIN_SWAP_FEE_PERCENTAGE
  else if _MAX_SWAP_FEE_PERCENTAGE < fee then .error .MAX_SWAP_FEE_PERCENTAGE
  else .ok (WordCodec.insertUint miscData fee _SWAP_FEE_PERCENTAGE_OFFSET 64)

/-- The misc-data word stored after a call to `_setSwapFeePercentage`
(unchanged when the call reverts, since a revert rolls the storage back). -/
def miscDataAfterSetSwapFee (miscData fee : Nat) : Nat :=
  match _setSwapFeePercentage miscData fee with
  | .ok newData => newData
  | .error _ => miscData

/-- `_setMiscData(bytes32 newData)`: inserts `newData` into the
least-significant 192 bits of the misc-data slot. -/
def _setMiscData (miscData newData : Nat) : Nat :=
  WordCodec.insertBits192 miscData newData 0

/-- The misc-data states reachable through the constructor (which calls
`_setSwapFeePercentage` on the zero-initialised slot) and successful calls
of `setSwapFeePercentage`. -/
inductive ReachableMisc : Nat → Prop where
  | construct (fee d : Nat) :
      _setSwapFeePercentage 0 fee = .ok d → ReachableMisc d
  | setFee (d fee d2 : Nat) :
      ReachableMisc d → _setSwapFeePercentage d fee = .ok d2 → ReachableMisc d2

end BaseTokenlessPool

/-!
## `EnumerableSet.AddressSet`

Addresses are modelled as `Nat`.
-/

namespace EnumerableSet

/-- Modelled from the spec: `EnumerableSet.AddressSet` (from
`@koyofinance/contracts-solidity-utils/contracts/openzeppelin/EnumerableSet.sol`,
a dependency of the repository not included under `src/`): an enumerable
set of addresses kept as a duplicate-free list. -/
abbrev AddressSet := List Nat

/-- Modelled from the spec: `EnumerableSet.contains`. -/
def contains (s : AddressSet) (a : Nat) : Bool :=
  decide (a ∈ s)

/-- Modelled from the spec: `EnumerableSet.add`; returns `true` and stores
the value when it was not yet present, `false` leaving the set unchanged
otherwise. -/
def add (s : AddressSet) (a : Nat) : Bool × AddressSet :=
  if contains s a then (false, s) else (true, s ++ [a])

/-- Modelled from the spec: `EnumerableSet.remove`; returns `true` and
deletes the value when present, `false` leaving the set unchanged
otherwise. -/
def remove (s : AddressSet) (a : Nat) : Bool × AddressSet :=
  if contains s a then (true, s.erase a) else (false, s)

end EnumerableSet

/-!
## `ProtocolFeesWithdrawer`

Embedding of `src/pkg/standalone-utils/contracts/ProtocolFeesWithdrawer.sol`.
The `authenticate` modifier (access control) is not part of the claims: the
operations below model the behaviour of authorized calls.
-/

namespace ProtocolFeesWithdrawer

/-- Contract state: the immutable Protocol Fees Collector reference and the
denylisted-token set. -/
structure State where
  protocolFeesCollector : Nat
  denylistedTokens : EnumerableSet.AddressSet
deriving DecidableEq, Repr

/-- The external call forwarded to
`IProtocolFeesCollector.withdrawCollectedFees`. -/
structure ForwardedWithdrawal where
  collector : Nat
  tokens : List Nat
  amounts : List Nat
  recipient : Nat
deriving DecidableEq, Repr

/-- `getProtocolFeesCollector()`. -/
def getProtocolFeesCollector (s : State) : Nat :=
  s.protocolFeesCollector

/-- `isWithdrawableToken(IERC20 token)`. -/
def isWithdrawableToken (s : State) (token : Nat) : Bool :=
  !(EnumerableSet.contains s.denylistedTokens token)

/-- `isWithdrawableTokens(IERC20[] tokens)`: the source loop with its early
`return false`. -/
def isWithdrawableTokens (s : State) : List Nat → Bool
  | [] => true
  | token :: rest =>
      if !(isWithdrawableToken s token) then false
      else isWithdrawableTokens s rest

/-- `withdrawCollectedFees(tokens, amounts, recipient)`: reverts when any
token is denylisted, otherwise forwards the arguments unchanged to the
Protocol Fees Collector. -/
def withdrawCollectedFees (s : State) (tokens : List Nat) (amounts : List Nat)
    (recipient : Nat) : Except String (State × ForwardedWithdrawal) :=
  if isWithdrawableTokens s tokens then
    .ok (s, ⟨s.protocolFeesCollector, tokens, amounts, recipient⟩)
  else .error "Attempting to withdraw denylisted token"

/-- `_denylistToken(IERC20 token)` (internal). -/
def _denylistToken (s : State) (token : Nat) : Except String State :=
  match EnumerableSet.add s.denylistedTokens token with
  | (true, newSet) => .ok { s with denylistedTokens := newSet }
  | (false, _) => .error "Token already denylisted"

/-- `denylistToken(IERC20 token)` (external, authenticated). -/
def denylistToken (s : State) (token : Nat) : Except String State :=
  _denylistToken s token

/-- `allowlistToken(IERC20 token)` (external, authenticated). -/
def allowlistToken (s : State) (token : Nat) : Except String State :=
  match EnumerableSet.remove s.denylistedTokens token with
  | (true, newSet) => .ok { s with denylistedTokens := newSet }
  | (false, _) => .error "Token is not denylisted"

/-- The constructor: starts with an empty denylist and denylists each
initially denied token in turn (reverting on duplicates). -/
def construct (collector : Nat) (initialDeniedTokens : List Nat) :
    Except String State :=
  initialDeniedTokens.foldlM _denylistToken ⟨collector, []⟩

/-- States reachable through the constructor and the (successful)
state-changing operations. -/
inductive Reachable : State → Prop where
  | construct (collector : Nat) (initialDeniedTokens : List Nat) (s : State) :
      construct collector initialDeniedTokens = .ok s → Reachable s
  | deny (s : State) (token : Nat) (s2 : State) :
      Reachable s → denylistToken s token = .ok s2 → Reachable s2
  | allow (s : State) (token : Nat) (s2 : State) :
      Reachable s → allowlistToken s token = .ok s2 → Reachable s2

/-- One authorized external call, for the immutability claim. -/
inductive Op where
  | withdrawCollectedFees (tokens : List Nat) (amounts : List Nat) (recipient : Nat)
  | denylistToken (token : Nat)
  | allowlistToken (token : Nat)

/-- The state after one call; a reverting call leaves the state unchanged. -/
def step (s : State) : Op → State
  | .withdrawCollectedFees tokens amounts recipient =>
      match withdrawCollectedFees s tokens amounts recipient with
      | .ok (s2, _) => s2
      | .error _ => s
  | .denylistToken token =>
      match denylistToken s token with
      | .ok s2 => s2
      | .error _ => s
  | .allowlistToken token =>
      match allowlistToken s token with
      | .ok s2 => s2
      | .error _ => s

end ProtocolFeesWithdrawer

/-!
## Pool state machine

State machine over the full `BaseTokenlessPool` state, for the
constructor-only immutable state claim.  `_vault`, `_poolId` and
`_protocolFeesCollector` are `immutable` fields set in the constructor;
the external operations only touch `_miscData` and the pause flag.
-/

namespace BaseTokenlessPool

/-- Full contract state after construction. -/
structure PoolState where
  vault : Nat
  poolId : Nat
  protocolFeesCollector : Nat
  miscData : Nat
  paused : Bool
deriving DecidableEq, Repr

/-- `getVault()`. -/
def getVault (s : PoolState) : Nat := s.vault

/-- `getPoolId()`. -/
def getPoolId (s : PoolState) : Nat := s.poolId

/-- `getProtocolFeesCollector()`. -/
def getProtocolFeesCollector (s : PoolState) : Nat := s.protocolFeesCollector

/-- One authorized external call on the pool.
`setAssetManagerPoolConfig` only performs an external call on the asset
manager and does not write any pool storage. -/
inductive PoolOp where
  | setSwapFeePercentage (fee : Nat)
  | setMiscData (newData : Nat)
  | setAssetManagerPoolConfig (token : Nat)
  | pause
  | unpause

/-- The state after one call; a reverting call leaves the state unchanged
(`setSwapFeePercentage` is `whenNotPaused` and bounds-checked). -/
def poolStep (s : PoolState) : PoolOp → PoolState
  | .setSwapFeePercentage fee =>
      if s.paused then s
      else
        match _setSwapFeePercentage s.miscData fee with
        | .ok newData => { s with miscData := newData }
        | .error _ => s
  | .setMiscData newData => { s with miscData := _setMiscData s.miscData newData }
  | .setAssetManagerPoolConfig _ => s
  | .pause => { s with paused := true }
  | .unpause => { s with paused := false }

end BaseTokenlessPool

/-!
## `linkBytecode` (TypeScript deployment helper)

Embedding of `linkBytecode` from the contract-deployment helper
(`src/unnamed/part_000`).  JavaScript strings are `List Char`:
`substr(0, n)` is `take n`, `substr(i)` is `drop i`, `+` is `++` and
`toLowerCase` is `map Char.toLower`.
-/

namespace ContractDeployment

/-- One fixup of a link reference: a byte range of the bytecode to patch. -/
structure Fixup where
  start : Nat
  length : Nat
deriving DecidableEq, Repr

/-- The `linkReferences` of an artifact: for each source file, the named
libraries with their fixups. -/
abbrev LinkReferences := List (String × List (String × List Fixup))

/-- The library-address map (`Libraries`). -/
abbrev Libraries := List (String × List Char)

/-- `libraries[libName]`: the address of the named library, when given. -/
def lookupLib (libs : Libraries) (libName : String) : Option (List Char) :=
  (libs.find? (fun pr => pr.1 == libName)).map (fun pr => pr.2)

/-- One fixup application:
`bytecode.substr(0, fixup.start * 2) + address.substr(2) +
 bytecode.substr((fixup.start + fixup.length) * 2)`. -/
def applyFixup (bytecode address : List Char) (fixup : Fixup) : List Char :=
  bytecode.take (fixup.start * 2) ++ address.drop 2
    ++ bytecode.drop ((fixup.start + fixup.length) * 2)

/-- The inner loop over one file's references: libraries absent from the
map are skipped (`continue`), present ones have all fixups applied. -/
def linkLibRef (libs : Libraries) (bytecode : List Char)
    (ref : String × List Fixup) : List Char :=
  match lookupLib libs ref.1 with
  | none => bytecode
  | some address => ref.2.foldl (fun bc fixup => applyFixup bc address fixup) bytecode

/-- The two nested loops of `linkBytecode`, before lowercasing. -/
def linkAllRefs (bytecode : List Char) (linkReferences : LinkReferences)
    (libs : Libraries) : List Char :=
  linkReferences.foldl
    (fun bc fileReferences => fileReferences.2.foldl (linkLibRef libs) bc)
    bytecode

/-- `linkBytecode`: applies every available fixup and lowercases the
resulting bytecode. -/
def linkBytecode (bytecode : List Char) (linkReferences : LinkReferences)
    (libs : Libraries) : List Char :=
  (linkAllRefs bytecode linkReferences libs).map Char.toLower

end ContractDeployment

/-!
## Solidity compiler configuration (`hardhat.config` helper)

Embedding of `contractSettings` / `overrides` from the second part of the
`ProtocolFeesWithdrawer.sol` source file.  JavaScript's
`String.replace(pattern, '')` with a string pattern removes the first
(leftmost) occurrence of the pattern, and object-key assignment either
overwrites the existing entry or appends a new one.
-/

namespace HardhatConfig

/-- `settings.optimizer` of a `SolcConfig`. -/
structure Optimizer where
  enabled : Bool
  runs : Option Nat
deriving DecidableEq, Repr

/-- `settings` of a `SolcConfig`. -/
structure SolcSettings where
  optimizer : Optimizer
deriving DecidableEq, Repr

/-- A Solidity compiler configuration. -/
structure SolcConfig where
  version : String
  settings : SolcSettings
deriving DecidableEq, Repr

/-- First contract path of `contractSettings`. -/
def hcKey1 : List Char :=
  "@koyofinance/exchange-vault/contracts/Vault.sol".data

/-- Second contract path of `contractSettings`. -/
def hcKey2 : List Char :=
  "@koyofinance/exchange-vault-pool-oracle/contracts/oracle/OracleWeightedPoolFactory.sol".data

/-- `contractSettings`: per-contract compiler version and optimizer runs. -/
def contractSettings : List (List Char × String × Nat) :=
  [(hcKey1, ("0.7.1", 1500)), (hcKey2, ("0.7.1", 200))]

/-- Index of the first (leftmost) occurrence of `pat` in `s`, if any. -/
def firstOccur (pat : List Char) : List Char → Option Nat
  | [] => if pat = [] then some 0 else none
  | c :: rest =>
      if (c :: rest).take pat.length = pat then some 0
      else (firstOccur pat rest).map (fun n => n + 1)

/-- JavaScript `s.replace(pat, '')` for string patterns: removes the first
occurrence of `pat` from `s`, or returns `s` unchanged when there is
none. -/
def replaceFirst (s pat : List Char) : List Char :=
  match firstOccur pat s with
  | none => s
  | some i => s.take i ++ s.drop (i + pat.length)

/-- JavaScript object-key assignment `record[key] = value` on a record kept
as an insertion-ordered association list. -/
def recordSet (record : List (List Char × SolcConfig)) (key : List Char)
    (value : SolcConfig) : List (List Char × SolcConfig) :=
  if key ∈ record.map Prod.fst then
    record.map (fun pr => if pr.1 = key then (key, value) else pr)
  else record ++ [(key, value)]

/-- `overrides(packageName)`: one entry per contract of `contractSettings`,
keyed by the contract path with the first occurrence of
`` `${packageName}/` `` removed, carrying the configured version and an
enabled optimizer with the configured runs. -/
def overrides (packageName : List Char) : List (List Char × SolcConfig) :=
  contractSettings.foldl
    (fun record contract =>
      recordSet record (replaceFirst contract.1 (packageName ++ ['/']))
        { version := contract.2.1,
          settings := { optimizer := { enabled := true, runs := some contract.2.2 } } })
    []

end HardhatConfig

/-!
## Helper lemmas: ProtocolFeesWithdrawer
-/

open ProtocolFeesWithdrawer in
theorem pfw_isWithdrawableTokens_iff (s : State) (tokens : List Nat) :
    isWithdrawableTokens s tokens = true ↔
      ∀ t ∈ tokens, t ∉ s.denylistedTokens := by
  induction tokens with
  | nil => simp [isWithdrawableTokens]
  | cons t rest ih =>
    simp [isWithdrawableTokens, isWithdrawableToken, EnumerableSet.contains, ih]

open ProtocolFeesWithdrawer in
theorem pfw_denylistToken_ok_iff (s : State) (token : Nat) (s2 : State) :
    _denylistToken s token = .ok s2 ↔
      token ∉ s.denylistedTokens ∧
        s2 = { s with denylistedTokens := s.denylistedTokens ++ [token] } := by
  unfold _denylistToken EnumerableSet.add EnumerableSet.contains
  by_cases hmem : token ∈ s.denylistedTokens
  · simp [hmem]
  · simp [hmem, eq_comm]

open ProtocolFeesWithdrawer in
theorem pfw_allowlistToken_ok_iff (s : State) (token : Nat) (s2 : State) :
    allowlistToken s token = .ok s2 ↔
      token ∈ s.denylistedTokens ∧
        s2 = { s with denylistedTokens := s.denylistedTokens.erase token } := by
  unfold allowlistToken EnumerableSet.remove EnumerableSet.contains
  by_cases hmem : token ∈ s.denylistedTokens
  · simp [hmem, eq_comm]
  · simp [hmem]

open ProtocolFeesWithdrawer in
theorem pfw_denylistToken_nodup (s : State) (token : Nat) (s2 : State)
    (h : _denylistToken s token = .ok s2)
    (hnd : s.denylistedTokens.Nodup) : s2.denylistedTokens.Nodup := by
  obtain ⟨hmem, rfl⟩ := (pfw_denylistToken_ok_iff s token s2).mp h
  simp [List.nodup_append, hnd, hmem]

open ProtocolFeesWithdrawer in
theorem pfw_construct_nodup (initialDeniedTokens : List Nat) :
    ∀ (s0 s : State),
      initialDeniedTokens.foldlM _denylistToken s0 = .ok s →
      s0.denylistedTokens.Nodup → s.denylistedTokens.Nodup := by
  induction initialDeniedTokens with
  | nil =>
    intro s0 s h h0
    simp only [List.foldlM_nil, pure, Except.pure, Except.ok.injEq] at h
    exact h ▸ h0
  | cons t rest ih =>
    intro s0 s h h0
    rw [List.foldlM_cons] at h
    cases hd : _denylistToken s0 t with
    | error e => rw [hd] at h; simp [bind, Except.bind] at h
    | ok s1 =>
      rw [hd] at h
      simp only [bind, Except.bind] at h
      exact ih s1 s h (pfw_denylistToken_nodup s0 t s1 hd h0)

open ProtocolFeesWithdrawer in
theorem pfw_reachable_nodup (s : State) (h : Reachable s) :
    s.denylistedTokens.Nodup := by
  induction h with
  | construct collector initialDeniedTokens s hc =>
    exact pfw_construct_nodup initialDeniedTokens ⟨collector, []⟩ s hc List.nodup_nil
  | deny s token s2 _ hstep ih =>
    exact pfw_denylistToken_nodup s token s2 hstep ih
  | allow s token s2 _ hstep ih =>
    obtain ⟨hmem, rfl⟩ := (pfw_allowlistToken_ok_iff s token s2).mp hstep
    exact ih.erase token

/-!
## Claim theorems: ProtocolFeesWithdrawer
-/

/-- C1: `ProtocolFeesWithdrawer.withdrawCollectedFees` acts as a withdrawal
safety layer: for every array of tokens, array of amounts, and recipient,
the call reverts if any token in the array is currently denylisted, and
otherwise forwards exactly the given tokens, amounts, and recipient to the
`ProtocolFeesCollector`'s `withdrawCollectedFees`, leaving the denylist
unchanged. -/
theorem withdrawCollectedFees_safety_layer :
    ∀ (s : ProtocolFeesWithdrawer.State) (tokens amounts : List Nat) (recipient : Nat),
      ((∃ t ∈ tokens, t ∈ s.denylistedTokens) →
        ProtocolFeesWithdrawer.withdrawCollectedFees s tokens amounts recipient =
          .error "Attempting to withdraw denylisted token") ∧
      ((∃ t ∈ tokens, t ∈ s.denylistedTokens) →
        ProtocolFeesWithdrawer.step s (.withdrawCollectedFees tokens amounts recipient) = s) ∧
      ((∀ t ∈ tokens, t ∉ s.denylistedTokens) →
        ProtocolFeesWithdrawer.withdrawCollectedFees s tokens amounts recipient =
          .ok (s, ⟨s.protocolFeesCollector, tokens, amounts, recipient⟩)) := by
  intro s tokens amounts recipient
  have hiff := pfw_isWithdrawableTokens_iff s tokens
  have herr : (∃ t ∈ tokens, t ∈ s.denylistedTokens) →
      ProtocolFeesWithdrawer.withdrawCollectedFees s tokens amounts recipient =
        .error "Attempting to withdraw denylisted token" := by
    rintro ⟨t, ht, hd⟩
    have hne : ¬ ProtocolFeesWithdrawer.isWithdrawableTokens s tokens = true :=
      fun htrue => (hiff.mp htrue t ht) hd
    unfold ProtocolFeesWithdrawer.withdrawCollectedFees
    rw [if_neg hne]
  refine ⟨herr, ?_, ?_⟩
  · intro hex
    simp only [ProtocolFeesWithdrawer.step, herr hex]
  · intro hall
    unfold ProtocolFeesWithdrawer.withdrawCollectedFees
    rw [if_pos (hiff.mpr hall)]

theorem withdrawCollectedFees_safety_layer_witness :
    ProtocolFeesWithdrawer.withdrawCollectedFees ⟨7, [3]⟩ [3] [10] 9 =
      .error "Attempting to withdraw denylisted token" ∧
    ProtocolFeesWithdrawer.step ⟨7, [3]⟩ (.withdrawCollectedFees [3] [10] 9) = ⟨7, [3]⟩ ∧
    ProtocolFeesWithdrawer.withdrawCollectedFees ⟨7, [3]⟩ [4] [10] 9 =
      .ok (⟨7, [3]⟩, ⟨7, [4], [10], 9⟩) :=
  ⟨(withdrawCollectedFees_safety_layer ⟨7, [3]⟩ [3] [10] 9).1 (by decide),
   (withdrawCollectedFees_safety_layer ⟨7, [3]⟩ [3] [10] 9).2.1 (by decide),
   (withdrawCollectedFees_safety_layer ⟨7, [3]⟩ [4] [10] 9).2.2 (by decide)⟩

/-- C9: `isWithdrawableTokens` applied to an empty token array returns
`true`, so `withdrawCollectedFees` called with empty token and amount
arrays always passes the denylist check regardless of the denylist's
contents. -/
theorem empty_array_withdrawal :
    ∀ (s : ProtocolFeesWithdrawer.State) (amounts : List Nat) (recipient : Nat),
      ProtocolFeesWithdrawer.isWithdrawableTokens s [] = true ∧
      ProtocolFeesWithdrawer.withdrawCollectedFees s [] amounts recipient =
        .ok (s, ⟨s.protocolFeesCollector, [], amounts, recipient⟩) := by
  intro s amounts recipient
  exact ⟨rfl, rfl⟩

/-- C10: denylist set semantics: `denylistToken` reverts exactly when the
token is already denylisted and `allowlistToken` reverts exactly when it is
not, with the denylist unchanged on revert; the denylist (reachable through
the constructor and the operations) never contains duplicates, after a
successful `denylistToken t` the token is not withdrawable, and after a
successful `allowlistToken t` it is. -/
theorem denylist_set_semantics :
    ∀ (s : ProtocolFeesWithdrawer.State) (token : Nat),
      (token ∈ s.denylistedTokens →
        ProtocolFeesWithdrawer.denylistToken s token = .error "Token already denylisted") ∧
      (token ∈ s.denylistedTokens →
        ProtocolFeesWithdrawer.step s (.denylistToken token) = s) ∧
      (token ∉ s.denylistedTokens →
        ProtocolFeesWithdrawer.denylistToken s token =
          .ok { s with denylistedTokens := s.denylistedTokens ++ [token] }) ∧
      (token ∉ s.denylistedTokens →
        ProtocolFeesWithdrawer.allowlistToken s token = .error "Token is not denylisted") ∧
      (token ∉ s.denylistedTokens →
        ProtocolFeesWithdrawer.step s (.allowlistToken token) = s) ∧
      (token ∈ s.denylistedTokens →
        ProtocolFeesWithdrawer.allowlistToken s token =
          .ok { s with denylistedTokens := s.denylistedTokens.erase token }) ∧
      (∀ s2, ProtocolFeesWithdrawer.Reachable s2 → s2.denylistedTokens.Nodup) ∧
      (∀ s2, ProtocolFeesWithdrawer.denylistToken s token = .ok s2 →
        ProtocolFeesWithdrawer.isWithdrawableToken s2 token = false) ∧
      (∀ s2, s.denylistedTokens.Nodup →
        ProtocolFeesWithdrawer.allowlistToken s token = .ok s2 →
        ProtocolFeesWithdrawer.isWithdrawableToken s2 token = true) := by
  intro s token
  have hdeny_err : token ∈ s.denylistedTokens →
      ProtocolFeesWithdrawer.denylistToken s token = .error "Token already denylisted" := by
    intro hmem
    unfold ProtocolFeesWithdrawer.denylistToken ProtocolFeesWithdrawer._denylistToken
      EnumerableSet.add EnumerableSet.contains
    simp [hmem]
  have hallow_err : token ∉ s.denylistedTokens →
      ProtocolFeesWithdrawer.allowlistToken s token = .error "Token is not denylisted" := by
    intro hmem
    unfold ProtocolFeesWithdrawer.allowlistToken EnumerableSet.remove EnumerableSet.contains
    simp [hmem]
  have hallow_ok : token ∈ s.denylistedTokens →
      ProtocolFeesWithdrawer.allowlistToken s token =
        .ok { s with denylistedTokens := s.denylistedTokens.erase token } := by
    intro hmem
    unfold ProtocolFeesWithdrawer.allowlistToken EnumerableSet.remove EnumerableSet.contains
    simp [hmem]
  refine ⟨hdeny_err, ?_, ?_, hallow_err, ?_, hallow_ok, pfw_reachable_nodup, ?_, ?_⟩
  · intro hmem
    simp only [ProtocolFeesWithdrawer.step, hdeny_err hmem]
  · intro hmem
    exact (pfw_denylistToken_ok_iff s token _).mpr ⟨hmem, rfl⟩
  · intro hmem
    simp only [ProtocolFeesWithdrawer.step, hallow_err hmem]
  · intro s2 hok
    obtain ⟨hmem, rfl⟩ := (pfw_denylistToken_ok_iff s token s2).mp hok
    simp [ProtocolFeesWithdrawer.isWithdrawableToken, EnumerableSet.contains]
  · intro s2 hnd hok
    by_cases hmem : token ∈ s.denylistedTokens
    · rw [hallow_ok hmem] at hok
      injection hok with hok
      rw [← hok]
      simp only [ProtocolFeesWithdrawer.isWithdrawableToken, EnumerableSet.contains]
      have : token ∉ s.denylistedTokens.erase token := fun hin =>
        ((hnd.mem_erase_iff).mp hin).1 rfl
      simp [this]
    · rw [hallow_err hmem] at hok
      exact absurd hok (by simp)

theorem denylist_set_semantics_witness :
    ProtocolFeesWithdrawer.denylistToken ⟨7, [3]⟩ 3 = .error "Token already denylisted" ∧
    ProtocolFeesWithdrawer.denylistToken ⟨7, [3]⟩ 4 = .ok ⟨7, [3, 4]⟩ ∧
    ProtocolFeesWithdrawer.allowlistToken ⟨7, [3]⟩ 4 = .error "Token is not denylisted" ∧
    ProtocolFeesWithdrawer.allowlistToken ⟨7, [3]⟩ 3 = .ok ⟨7, []⟩ ∧
    ([5, 6] : List Nat).Nodup ∧
    ProtocolFeesWithdrawer.isWithdrawableToken ⟨7, [3, 4]⟩ 4 = false ∧
    ProtocolFeesWithdrawer.isWithdrawableToken ⟨7, []⟩ 3 = true :=
  ⟨(denylist_set_semantics ⟨7, [3]⟩ 3).1 (by decide),
   (denylist_set_semantics ⟨7, [3]⟩ 4).2.2.1 (by decide),
   (denylist_set_semantics ⟨7, [3]⟩ 4).2.2.2.1 (by decide),
   (denylist_set_semantics ⟨7, [3]⟩ 3).2.2.2.2.2.1 (by decide),
   (denylist_set_semantics ⟨7, [3]⟩ 3).2.2.2.2.2.2.1 ⟨7, [5, 6]⟩
     (ProtocolFeesWithdrawer.Reachable.construct 7 [5, 6] ⟨7, [5, 6]⟩ rfl),
   (denylist_set_semantics ⟨7, [3]⟩ 4).2.2.2.2.2.2.2.1 ⟨7, [3, 4]⟩ (by rfl),
   (denylist_set_semantics ⟨7, [3]⟩ 3).2.2.2.2.2.2.2.2 ⟨7, []⟩ (by decide) (by rfl)⟩

/-!
## Helper lemmas: BaseTokenlessPool
-/

open BaseTokenlessPool in
theorem btp_setFee_ok (d fee d2 : Nat)
    (h : _setSwapFeePercentage d fee = .ok d2) :
    _MIN_SWAP_FEE_PERCENTAGE ≤ fee ∧ fee ≤ _MAX_SWAP_FEE_PERCENTAGE ∧
      d2 = WordCodec.insertUint d fee _SWAP_FEE_PERCENTAGE_OFFSET 64 := by
  unfold _setSwapFeePercentage at h
  split at h
  · exact absurd h (by simp)
  · split at h
    · exact absurd h (by simp)
    · injection h with h
      exact ⟨by omega, by omega, h.symm⟩

open BaseTokenlessPool in
theorem btp_getSwapFee_insert (d fee : Nat)
    (hfee : fee ≤ _MAX_SWAP_FEE_PERCENTAGE) :
    getSwapFeePercentage (WordCodec.insertUint d fee _SWAP_FEE_PERCENTAGE_OFFSET 64)
      = fee := by
  unfold getSwapFeePercentage
  refine WordCodec.wc_decodeUint_insertUint d fee _ 64 ?_
  have : _MAX_SWAP_FEE_PERCENTAGE < 2 ^ 64 := by norm_num [_MAX_SWAP_FEE_PERCENTAGE]
  omega

open BaseTokenlessPool in
theorem btp_reachable_fee_bounds (d : Nat) (h : ReachableMisc d) :
    _MIN_SWAP_FEE_PERCENTAGE ≤ getSwapFeePercentage d ∧
      getSwapFeePercentage d ≤ _MAX_SWAP_FEE_PERCENTAGE := by
  induction h with
  | construct fee d hok =>
    obtain ⟨hmin, hmax, rfl⟩ := btp_setFee_ok 0 fee d hok
    rw [btp_getSwapFee_insert 0 fee hmax]
    exact ⟨hmin, hmax⟩
  | setFee d fee d2 _ hok _ =>
    obtain ⟨hmin, hmax, rfl⟩ := btp_setFee_ok d fee d2 hok
    rw [btp_getSwapFee_insert d fee hmax]
    exact ⟨hmin, hmax⟩

/-!
## Claim theorems: BaseTokenlessPool swap fee and misc data
-/

/-- C2: swap-fee invariant of `BaseTokenlessPool`: every state reachable
through the constructor and `setSwapFeePercentage` satisfies
`1e12 ≤ getSwapFeePercentage() ≤ 1e17`; `_setSwapFeePercentage` reverts
with `MIN_SWAP_FEE_PERCENTAGE` or `MAX_SWAP_FEE_PERCENTAGE` for any
argument outside that range and, on revert, the stored misc data is
unchanged. -/
theorem swap_fee_invariant :
    (∀ d, BaseTokenlessPool.ReachableMisc d →
      BaseTokenlessPool._MIN_SWAP_FEE_PERCENTAGE
          ≤ BaseTokenlessPool.getSwapFeePercentage d ∧
        BaseTokenlessPool.getSwapFeePercentage d
          ≤ BaseTokenlessPool._MAX_SWAP_FEE_PERCENTAGE) ∧
    (∀ d fee, fee < BaseTokenlessPool._MIN_SWAP_FEE_PERCENTAGE →
      BaseTokenlessPool._setSwapFeePercentage d fee =
        .error .MIN_SWAP_FEE_PERCENTAGE) ∧
    (∀ d fee, BaseTokenlessPool._MAX_SWAP_FEE_PERCENTAGE < fee →
      BaseTokenlessPool._setSwapFeePercentage d fee =
        .error .MAX_SWAP_FEE_PERCENTAGE) ∧
    (∀ d fee e, BaseTokenlessPool._setSwapFeePercentage d fee = .error e →
      BaseTokenlessPool.miscDataAfterSetSwapFee d fee = d) := by
  refine ⟨btp_reachable_fee_bounds, ?_, ?_, ?_⟩
  · intro d fee hlt
    unfold BaseTokenlessPool._setSwapFeePercentage
    rw [if_pos hlt]
  · intro d fee hgt
    have hge : ¬ fee < BaseTokenlessPool._MIN_SWAP_FEE_PERCENTAGE := by
      norm_num [BaseTokenlessPool._MIN_SWAP_FEE_PERCENTAGE,
        BaseTokenlessPool._MAX_SWAP_FEE_PERCENTAGE] at hgt ⊢
      omega
    unfold BaseTokenlessPool._setSwapFeePercentage
    rw [if_neg hge, if_pos hgt]
  · intro d fee e herr
    unfold BaseTokenlessPool.miscDataAfterSetSwapFee
    rw [herr]

theorem swap_fee_invariant_witness :
    (BaseTokenlessPool._MIN_SWAP_FEE_PERCENTAGE
        ≤ BaseTokenlessPool.getSwapFeePercentage
            (WordCodec.insertUint 0 (10 ^ 12) 192 64) ∧
      BaseTokenlessPool.getSwapFeePercentage
          (WordCodec.insertUint 0 (10 ^ 12) 192 64)
        ≤ BaseTokenlessPool._MAX_SWAP_FEE_PERCENTAGE) ∧
    BaseTokenlessPool._setSwapFeePercentage 5 0 = .error .MIN_SWAP_FEE_PERCENTAGE ∧
    BaseTokenlessPool._setSwapFeePercentage 5 (10 ^ 18) =
      .error .MAX_SWAP_FEE_PERCENTAGE ∧
    BaseTokenlessPool.miscDataAfterSetSwapFee 5 0 = 5 :=
  ⟨swap_fee_invariant.1 _
     (BaseTokenlessPool.ReachableMisc.construct (10 ^ 12) _ (by rfl)),
   swap_fee_invariant.2.1 5 0 (by norm_num [BaseTokenlessPool._MIN_SWAP_FEE_PERCENTAGE]),
   swap_fee_invariant.2.2.1 5 (10 ^ 18)
     (by norm_num [BaseTokenlessPool._MAX_SWAP_FEE_PERCENTAGE]),
   swap_fee_invariant.2.2.2 5 0 .MIN_SWAP_FEE_PERCENTAGE
     (swap_fee_invariant.2.1 5 0
       (by norm_num [BaseTokenlessPool._MIN_SWAP_FEE_PERCENTAGE]))⟩

/-- C5: the swap fee and the pool-specific misc data share one 256-bit
storage slot without interference: for every 192-bit value `newData`,
`_setMiscData newData` leaves `getSwapFeePercentage()` (the
most-significant 64 bits of `_miscData`) unchanged, and conversely
`_setSwapFeePercentage` leaves the least-significant 192 bits of
`_miscData` unchanged. -/
theorem misc_data_slot_sharing :
    ∀ d newData : Nat, newData < 2 ^ 192 →
      BaseTokenlessPool.getSwapFeePercentage
          (BaseTokenlessPool._setMiscData d newData)
        = BaseTokenlessPool.getSwapFeePercentage d ∧
      (∀ fee d2, BaseTokenlessPool._setSwapFeePercentage d fee = .ok d2 →
        d2 % 2 ^ 192 = d % 2 ^ 192) := by
  intro d newData _
  constructor
  · unfold BaseTokenlessPool.getSwapFeePercentage BaseTokenlessPool._setMiscData
      WordCodec.insertBits192 BaseTokenlessPool._SWAP_FEE_PERCENTAGE_OFFSET
    exact WordCodec.wc_decodeUint_frame d newData 0 192 192 64 (Or.inl (by omega))
  · intro fee d2 hok
    obtain ⟨-, -, rfl⟩ := btp_setFee_ok d fee d2 hok
    exact WordCodec.wc_insertUint_mod d fee
      BaseTokenlessPool._SWAP_FEE_PERCENTAGE_OFFSET 64 192 (by norm_num [BaseTokenlessPool._SWAP_FEE_PERCENTAGE_OFFSET])

theorem misc_data_slot_sharing_witness :
    BaseTokenlessPool.getSwapFeePercentage (BaseTokenlessPool._setMiscData 0 5)
        = BaseTokenlessPool.getSwapFeePercentage 0 ∧
    WordCodec.insertUint 0 (10 ^ 12) 192 64 % 2 ^ 192 = 0 % 2 ^ 192 :=
  ⟨(misc_data_slot_sharing 0 5 (by norm_num)).1,
   (misc_data_slot_sharing 0 5 (by norm_num)).2 (10 ^ 12) _ (by rfl)⟩

/-!
## Helper lemmas: immutable constructor-only state
-/

open BaseTokenlessPool in
theorem btp_poolStep_immutable (s : PoolState) (op : PoolOp) :
    (poolStep s op).vault = s.vault ∧
      (poolStep s op).poolId = s.poolId ∧
      (poolStep s op).protocolFeesCollector = s.protocolFeesCollector := by
  cases op with
  | setSwapFeePercentage fee =>
    simp only [poolStep]
    split
    · exact ⟨rfl, rfl, rfl⟩
    · cases _setSwapFeePercentage s.miscData fee <;> exact ⟨rfl, rfl, rfl⟩
  | setMiscData newData => exact ⟨rfl, rfl, rfl⟩
  | setAssetManagerPoolConfig token => exact ⟨rfl, rfl, rfl⟩
  | pause => exact ⟨rfl, rfl, rfl⟩
  | unpause => exact ⟨rfl, rfl, rfl⟩

open BaseTokenlessPool in
theorem btp_foldl_immutable (ops : List PoolOp) :
    ∀ s : PoolState,
      (ops.foldl poolStep s).vault = s.vault ∧
        (ops.foldl poolStep s).poolId = s.poolId ∧
        (ops.foldl poolStep s).protocolFeesCollector = s.protocolFeesCollector := by
  induction ops with
  | nil => intro s; exact ⟨rfl, rfl, rfl⟩
  | cons op rest ih =>
    intro s
    rw [List.foldl_cons]
    obtain ⟨h1, h2, h3⟩ := ih (poolStep s op)
    obtain ⟨g1, g2, g3⟩ := btp_poolStep_immutable s op
    exact ⟨h1.trans g1, h2.trans g2, h3.trans g3⟩

open ProtocolFeesWithdrawer in
theorem pfw_step_immutable (s : State) (op : Op) :
    (step s op).protocolFeesCollector = s.protocolFeesCollector := by
  cases op with
  | withdrawCollectedFees tokens amounts recipient =>
    simp only [step, withdrawCollectedFees]
    by_cases hw : isWithdrawableTokens s tokens = true
    · rw [if_pos hw]
    · rw [if_neg hw]
  | denylistToken token =>
    simp only [step]
    cases h : denylistToken s token with
    | error e => rfl
    | ok s2 =>
      obtain ⟨-, rfl⟩ := (pfw_denylistToken_ok_iff s token s2).mp h
      rfl
  | allowlistToken token =>
    simp only [step]
    cases h : allowlistToken s token with
    | error e => rfl
    | ok s2 =>
      obtain ⟨-, rfl⟩ := (pfw_allowlistToken_ok_iff s token s2).mp h
      rfl

open ProtocolFeesWithdrawer in
theorem pfw_foldl_immutable (ops : List Op) :
    ∀ s : State,
      (ops.foldl step s).protocolFeesCollector = s.protocolFeesCollector := by
  induction ops with
  | nil => intro s; rfl
  | cons op rest ih =>
    intro s
    rw [List.foldl_cons]
    exact (ih (step s op)).trans (pfw_step_immutable s op)

/-- C6: immutable constructor-only state: the vault, pool id, and protocol
fees collector of `BaseTokenlessPool`, and the protocol fees collector of
`ProtocolFeesWithdrawer`, are fixed at construction and no subsequent
operation modifies them, so `getVault()`, `getPoolId()`, and
`getProtocolFeesCollector()` return the same value after every sequence of
operations. -/
theorem immutable_constructor_state :
    (∀ (s : BaseTokenlessPool.PoolState) (ops : List BaseTokenlessPool.PoolOp),
      BaseTokenlessPool.getVault (ops.foldl BaseTokenlessPool.poolStep s)
          = BaseTokenlessPool.getVault s ∧
        BaseTokenlessPool.getPoolId (ops.foldl BaseTokenlessPool.poolStep s)
          = BaseTokenlessPool.getPoolId s ∧
        BaseTokenlessPool.getProtocolFeesCollector
            (ops.foldl BaseTokenlessPool.poolStep s)
          = BaseTokenlessPool.getProtocolFeesCollector s) ∧
    (∀ (ws : ProtocolFeesWithdrawer.State) (wops : List ProtocolFeesWithdrawer.Op),
      ProtocolFeesWithdrawer.getProtocolFeesCollector
          (wops.foldl ProtocolFeesWithdrawer.step ws)
        = ProtocolFeesWithdrawer.getProtocolFeesCollector ws) :=
  ⟨fun s ops => btp_foldl_immutable ops s,
   fun ws wops => pfw_foldl_immutable wops ws⟩

/-!
## Claim theorems: oracle misc-data codec
-/

/-- C3: round-trip of the bit-packed oracle misc-data codec: for every
256-bit word `data` and every value in the field's declared range —
`oracleSampleCreationTimestamp` in `[0, 2^31)`, `oracleIndex` in
`[0, 2^10)`, `logInvariant` and `logTotalSupply` in `[-2^21, 2^21)`,
`oracleEnabled` a boolean — applying the corresponding setter to `data`
and then the corresponding getter returns exactly that value. -/
theorem oracle_misc_data_roundtrip :
    ∀ data : Nat, data < 2 ^ 256 →
    ∀ (ts idx : Nat) (li lts : Int) (b : Bool),
      ts < 2 ^ 31 → idx < 2 ^ 10 →
      -(2 ^ 21) ≤ li → li < 2 ^ 21 → -(2 ^ 21) ≤ lts → lts < 2 ^ 21 →
      MetaStablePoolOracleMiscData.oracleSampleCreationTimestamp
          (MetaStablePoolOracleMiscData.setOracleSampleCreationTimestamp data ts) = ts ∧
      MetaStablePoolOracleMiscData.oracleIndex
          (MetaStablePoolOracleMiscData.setOracleIndex data idx) = idx ∧
      MetaStablePoolOracleMiscData.logInvariant
          (MetaStablePoolOracleMiscData.setLogInvariant data li) = li ∧
      MetaStablePoolOracleMiscData.logTotalSupply
          (MetaStablePoolOracleMiscData.setLogTotalSupply data lts) = lts ∧
      MetaStablePoolOracleMiscData.oracleEnabled
          (MetaStablePoolOracleMiscData.setOracleEnabled data b) = b := by
  intro data _ ts idx li lts b hts hidx hli1 hli2 hlts1 hlts2
  refine ⟨?_, ?_, ?_, ?_, ?_⟩
  · exact WordCodec.wc_decodeUint_insertUint data ts _ 31 hts
  · exact WordCodec.wc_decodeUint_insertUint data idx _ 10 hidx
  · exact WordCodec.wc_decodeInt_insertInt22 data li _ hli1 hli2
  · exact WordCodec.wc_decodeInt_insertInt22 data lts _ hlts1 hlts2
  · exact WordCodec.wc_decodeBool_insertBool data b _

theorem oracle_misc_data_roundtrip_witness :
    MetaStablePoolOracleMiscData.oracleSampleCreationTimestamp
        (MetaStablePoolOracleMiscData.setOracleSampleCreationTimestamp 3 77) = 77 ∧
    MetaStablePoolOracleMiscData.oracleIndex
        (MetaStablePoolOracleMiscData.setOracleIndex 3 9) = 9 ∧
    MetaStablePoolOracleMiscData.logInvariant
        (MetaStablePoolOracleMiscData.setLogInvariant 3 (-5)) = -5 ∧
    MetaStablePoolOracleMiscData.logTotalSupply
        (MetaStablePoolOracleMiscData.setLogTotalSupply 3 8) = 8 ∧
    MetaStablePoolOracleMiscData.oracleEnabled
        (MetaStablePoolOracleMiscData.setOracleEnabled 3 true) = true :=
  oracle_misc_data_roundtrip 3 (by norm_num) 77 9 (-5) 8 true (by norm_num)
    (by norm_num) (by norm_num) (by norm_num) (by norm_num) (by norm_num)

/-- C4: frame property of the bit-packed oracle misc-data codec: the five
fields occupy disjoint bit ranges (log invariant at bits 0-21, log total
supply at bits 22-43, sample creation timestamp at bits 44-74, oracle
index at bits 75-84, oracle enabled at bit 85), so for every word `data`
and in-range value, applying any one setter leaves the result of every
other getter equal to its value on the original `data`. -/
theorem oracle_misc_data_frame :
    ∀ data : Nat, data < 2 ^ 256 →
    ∀ (ts idx : Nat) (li lts : Int) (b : Bool),
      ts < 2 ^ 31 → idx < 2 ^ 10 →
      -(2 ^ 21) ≤ li → li < 2 ^ 21 → -(2 ^ 21) ≤ lts → lts < 2 ^ 21 →
      (MetaStablePoolOracleMiscData.logTotalSupply
          (MetaStablePoolOracleMiscData.setLogInvariant data li)
        = MetaStablePoolOracleMiscData.logTotalSupply data ∧
       MetaStablePoolOracleMiscData.oracleSampleCreationTimestamp
          (MetaStablePoolOracleMiscData.setLogInvariant data li)
        = MetaStablePoolOracleMiscData.oracleSampleCreationTimestamp data ∧
       MetaStablePoolOracleMiscData.oracleIndex
          (MetaStablePoolOracleMiscData.setLogInvariant data li)
        = MetaStablePoolOracleMiscData.oracleIndex data ∧
       MetaStablePoolOracleMiscData.oracleEnabled
          (MetaStablePoolOracleMiscData.setLogInvariant data li)
        = MetaStablePoolOracleMiscData.oracleEnabled data) ∧
      (MetaStablePoolOracleMiscData.logInvariant
          (MetaStablePoolOracleMiscData.setLogTotalSupply data lts)
        = MetaStablePoolOracleMiscData.logInvariant data ∧
       MetaStablePoolOracleMiscData.oracleSampleCreationTimestamp
          (MetaStablePoolOracleMiscData.setLogTotalSupply data lts)
        = MetaStablePoolOracleMiscData.oracleSampleCreationTimestamp data ∧
       MetaStablePoolOracleMiscData.oracleIndex
          (MetaStablePoolOracleMiscData.setLogTotalSupply data lts)
        = MetaStablePoolOracleMiscData.oracleIndex data ∧
       MetaStablePoolOracleMiscData.oracleEnabled
          (MetaStablePoolOracleMiscData.setLogTotalSupply data lts)
        = MetaStablePoolOracleMiscData.oracleEnabled data) ∧
      (MetaStablePoolOracleMiscData.logInvariant
          (MetaStablePoolOracleMiscData.setOracleSampleCreationTimestamp data ts)
        = MetaStablePoolOracleMiscData.logInvariant data ∧
       MetaStablePoolOracleMiscData.logTotalSupply
          (MetaStablePoolOracleMiscData.setOracleSampleCreationTimestamp data ts)
        = MetaStablePoolOracleMiscData.logTotalSupply data ∧
       MetaStablePoolOracleMiscData.oracleIndex
          (MetaStablePoolOracleMiscData.setOracleSampleCreationTimestamp data ts)
        = MetaStablePoolOracleMiscData.oracleIndex data ∧
       MetaStablePoolOracleMiscData.oracleEnabled
          (MetaStablePoolOracleMiscData.setOracleSampleCreationTimestamp data ts)
        = MetaStablePoolOracleMiscData.oracleEnabled data) ∧
      (MetaStablePoolOracleMiscData.logInvariant
          (MetaStablePoolOracleMiscData.setOracleIndex data idx)
        = MetaStablePoolOracleMiscData.logInvariant data ∧
       MetaStablePoolOracleMiscData.logTotalSupply
          (MetaStablePoolOracleMiscData.setOracleIndex data idx)
        = MetaStablePoolOracleMiscData.logTotalSupply data ∧
       MetaStablePoolOracleMiscData.oracleSampleCreationTimestamp
          (MetaStablePoolOracleMiscData.setOracleIndex data idx)
        = MetaStablePoolOracleMiscData.oracleSampleCreationTimestamp data ∧
       MetaStablePoolOracleMiscData.oracleEnabled
          (MetaStablePoolOracleMiscData.setOracleIndex data idx)
        = MetaStablePoolOracleMiscData.oracleEnabled data) ∧
      (MetaStablePoolOracleMiscData.logInvariant
          (MetaStablePoolOracleMiscData.setOracleEnabled data b)
        = MetaStablePoolOracleMiscData.logInvariant data ∧
       MetaStablePoolOracleMiscData.logTotalSupply
          (MetaStablePoolOracleMiscData.setOracleEnabled data b)
        = MetaStablePoolOracleMiscData.logTotalSupply data ∧
       MetaStablePoolOracleMiscData.oracleSampleCreationTimestamp
          (MetaStablePoolOracleMiscData.setOracleEnabled data b)
        = MetaStablePoolOracleMiscData.oracleSampleCreationTimestamp data ∧
       MetaStablePoolOracleMiscData.oracleIndex
          (MetaStablePoolOracleMiscData.setOracleEnabled data b)
        = MetaStablePoolOracleMiscData.oracleIndex data) := by
  intro data _ ts idx li lts b _ _ _ _ _ _
  simp only [MetaStablePoolOracleMiscData.logInvariant,
    MetaStablePoolOracleMiscData.logTotalSupply,
    MetaStablePoolOracleMiscData.oracleSampleCreationTimestamp,
    MetaStablePoolOracleMiscData.oracleIndex,
    MetaStablePoolOracleMiscData.oracleEnabled,
    MetaStablePoolOracleMiscData.setLogInvariant,
    MetaStablePoolOracleMiscData.setLogTotalSupply,
    MetaStablePoolOracleMiscData.setOracleSampleCreationTimestamp,
    MetaStablePoolOracleMiscData.setOracleIndex,
    MetaStablePoolOracleMiscData.setOracleEnabled,
    MetaStablePoolOracleMiscData._LOG_INVARIANT_OFFSET,
    MetaStablePoolOracleMiscData._LOG_TOTAL_SUPPLY_OFFSET,
    MetaStablePoolOracleMiscData._ORACLE_SAMPLE_CREATION_TIMESTAMP_OFFSET,
    MetaStablePoolOracleMiscData._ORACLE_INDEX_OFFSET,
    MetaStablePoolOracleMiscData._ORACLE_ENABLED_OFFSET,
    WordCodec.insertInt, WordCodec.insertBool]
  refine ⟨⟨?_, ?_, ?_, ?_⟩, ⟨?_, ?_, ?_, ?_⟩, ⟨?_, ?_, ?_, ?_⟩,
    ⟨?_, ?_, ?_, ?_⟩, ⟨?_, ?_, ?_, ?_⟩⟩ <;>
  first
    | exact WordCodec.wc_decodeUint_frame _ _ _ _ _ _ (by norm_num)
    | exact WordCodec.wc_decodeInt_frame _ _ _ _ _ _ (by norm_num)
    | exact WordCodec.wc_decodeBool_frame _ _ _ _ _ (by norm_num)

theorem oracle_misc_data_frame_witness :
    MetaStablePoolOracleMiscData.logTotalSupply
        (MetaStablePoolOracleMiscData.setLogInvariant 3 (-5))
      = MetaStablePoolOracleMiscData.logTotalSupply 3 ∧
    MetaStablePoolOracleMiscData.oracleSampleCreationTimestamp
        (MetaStablePoolOracleMiscData.setLogInvariant 3 (-5))
      = MetaStablePoolOracleMiscData.oracleSampleCreationTimestamp 3 ∧
    MetaStablePoolOracleMiscData.oracleIndex
        (MetaStablePoolOracleMiscData.setLogInvariant 3 (-5))
      = MetaStablePoolOracleMiscData.oracleIndex 3 ∧
    MetaStablePoolOracleMiscData.oracleEnabled
        (MetaStablePoolOracleMiscData.setLogInvariant 3 (-5))
      = MetaStablePoolOracleMiscData.oracleEnabled 3 :=
  (oracle_misc_data_frame 3 (by norm_num) 77 9 (-5) 8 true (by norm_num)
    (by norm_num) (by norm_num) (by norm_num) (by norm_num) (by norm_num)).1

/-!
## Helper lemmas: bytecode linking
-/

open ContractDeployment in
theorem cd_applyFixup_length (bc addr : List Char) (f : Fixup)
    (haddr : addr.length = 42) (hlen : f.length = 20)
    (hbound : 2 * (f.start + f.length) ≤ bc.length) :
    (applyFixup bc addr f).length = bc.length := by
  simp only [applyFixup, List.length_append, List.length_take, List.length_drop]
  omega

open ContractDeployment in
theorem cd_lookupLib_length (libs : Libraries) (libName : String) (addr : List Char)
    (hlibs : ∀ pr ∈ libs, pr.2.length = 42)
    (h : lookupLib libs libName = some addr) : addr.length = 42 := by
  unfold lookupLib at h
  cases hfind : libs.find? (fun pr => pr.1 == libName) with
  | none => rw [hfind] at h; exact absurd h (by simp)
  | some pr =>
    rw [hfind] at h
    simp only [Option.map_some', Option.some.injEq] at h
    rw [← h]
    exact hlibs pr (List.mem_of_find?_eq_some hfind)

open ContractDeployment in
theorem cd_fixupsFold_length (addr : List Char) (haddr : addr.length = 42)
    (n : Nat) (fixups : List Fixup)
    (hf : ∀ f ∈ fixups, f.length = 20 ∧ 2 * (f.start + f.length) ≤ n) :
    ∀ bc : List Char, bc.length = n →
      (fixups.foldl (fun b f => applyFixup b addr f) bc).length = n := by
  induction fixups with
  | nil => intro bc h; exact h
  | cons f rest ih =>
    intro bc h
    rw [List.foldl_cons]
    obtain ⟨h1, h2⟩ := hf f (List.mem_cons_self f rest)
    exact ih (fun g hg => hf g (List.mem_cons_of_mem f hg)) (applyFixup bc addr f)
      ((cd_applyFixup_length bc addr f haddr h1 (h ▸ h2)).trans h)

open ContractDeployment in
theorem cd_linkLibRef_length (libs : Libraries)
    (hlibs : ∀ pr ∈ libs, pr.2.length = 42) (n : Nat)
    (ref : String × List Fixup)
    (hf : ∀ f ∈ ref.2, f.length = 20 ∧ 2 * (f.start + f.length) ≤ n)
    (bc : List Char) (h : bc.length = n) :
    (linkLibRef libs bc ref).length = n := by
  unfold linkLibRef
  cases hlook : lookupLib libs ref.1 with
  | none => exact h
  | some addr =>
    exact cd_fixupsFold_length addr (cd_lookupLib_length libs ref.1 addr hlibs hlook)
      n ref.2 hf bc h

open ContractDeployment in
theorem cd_fileFold_length (libs : Libraries)
    (hlibs : ∀ pr ∈ libs, pr.2.length = 42) (n : Nat)
    (refs : List (String × List Fixup))
    (hf : ∀ ref ∈ refs, ∀ f ∈ ref.2, f.length = 20 ∧ 2 * (f.start + f.length) ≤ n) :
    ∀ bc : List Char, bc.length = n →
      (refs.foldl (linkLibRef libs) bc).length = n := by
  induction refs with
  | nil => intro bc h; exact h
  | cons ref rest ih =>
    intro bc h
    rw [List.foldl_cons]
    exact ih (fun r hr => hf r (List.mem_cons_of_mem ref hr)) _
      (cd_linkLibRef_length libs hlibs n ref (hf ref (List.mem_cons_self ref rest)) bc h)

open ContractDeployment in
theorem cd_linkAllRefs_length (libs : Libraries)
    (hlibs : ∀ pr ∈ libs, pr.2.length = 42) (n : Nat)
    (linkReferences : LinkReferences)
    (hf : ∀ fr ∈ linkReferences, ∀ ref ∈ fr.2, ∀ f ∈ ref.2,
      f.length = 20 ∧ 2 * (f.start + f.length) ≤ n) :
    ∀ bc : List Char, bc.length = n →
      (linkAllRefs bc linkReferences libs).length = n := by
  unfold linkAllRefs
  induction linkReferences with
  | nil => intro bc h; exact h
  | cons fr rest ih =>
    intro bc h
    rw [List.foldl_cons]
    exact ih (fun q hq => hf q (List.mem_cons_of_mem fr hq)) _
      (cd_fileFold_length libs hlibs n fr.2 (hf fr (List.mem_cons_self fr rest)) bc h)

open ContractDeployment in
theorem cd_fileFold_skip (libs : Libraries) (refs : List (String × List Fixup))
    (habsent : ∀ ref ∈ refs, lookupLib libs ref.1 = none) :
    ∀ bc : List Char, refs.foldl (linkLibRef libs) bc = bc := by
  induction refs with
  | nil => intro bc; rfl
  | cons ref rest ih =>
    intro bc
    rw [List.foldl_cons]
    have hstep : linkLibRef libs bc ref = bc := by
      unfold linkLibRef
      rw [habsent ref (List.mem_cons_self ref rest)]
    rw [hstep]
    exact ih (fun r hr => habsent r (List.mem_cons_of_mem ref hr)) bc

open ContractDeployment in
theorem cd_linkAllRefs_skip (libs : Libraries) (linkReferences : LinkReferences)
    (habsent : ∀ fr ∈ linkReferences, ∀ ref ∈ fr.2, lookupLib libs ref.1 = none) :
    ∀ bc : List Char, linkAllRefs bc linkReferences libs = bc := by
  unfold linkAllRefs
  induction linkReferences with
  | nil => intro bc; rfl
  | cons fr rest ih =>
    intro bc
    rw [List.foldl_cons, cd_fileFold_skip libs fr.2 (habsent fr (List.mem_cons_self fr rest)) bc]
    exact ih (fun q hq => habsent q (List.mem_cons_of_mem fr hq)) bc

/-- C7: bytecode linking: for every artifact and library-address map,
`linkBytecode` replaces, for each fixup of each link reference whose
library name has an address in the map, exactly the hex characters from
position `2*start` to `2*(start+length)` of the bytecode with the address
string minus its first two characters, leaves references to libraries
absent from the map untouched, and lowercases the resulting bytecode; when
every supplied address is a 42-character `0x`-prefixed string and every
fixup has length 20 (and lies inside the bytecode), the bytecode's length
is unchanged. -/
theorem link_bytecode_spec :
    ∀ (bytecode address : List Char) (f : ContractDeployment.Fixup)
      (linkReferences : ContractDeployment.LinkReferences)
      (libs : ContractDeployment.Libraries),
      ContractDeployment.applyFixup bytecode address f =
        bytecode.take (2 * f.start) ++ address.drop 2
          ++ bytecode.drop (2 * (f.start + f.length)) ∧
      ContractDeployment.linkBytecode bytecode linkReferences libs =
        (ContractDeployment.linkAllRefs bytecode linkReferences libs).map Char.toLower ∧
      ((∀ fr ∈ linkReferences, ∀ ref ∈ fr.2,
          ContractDeployment.lookupLib libs ref.1 = none) →
        ContractDeployment.linkBytecode bytecode linkReferences libs =
          bytecode.map Char.toLower) ∧
      ((∀ pr ∈ libs, pr.2.length = 42) →
       (∀ fr ∈ linkReferences, ∀ ref ∈ fr.2, ∀ f2 ∈ ref.2,
          f2.length = 20 ∧ 2 * (f2.start + f2.length) ≤ bytecode.length) →
        (ContractDeployment.linkBytecode bytecode linkReferences libs).length
          = bytecode.length) := by
  intro bytecode address f linkReferences libs
  refine ⟨?_, rfl, ?_, ?_⟩
  · unfold ContractDeployment.applyFixup
    rw [Nat.mul_comm f.start 2, Nat.mul_comm (f.start + f.length) 2]
  · intro habsent
    unfold ContractDeployment.linkBytecode
    rw [cd_linkAllRefs_skip libs linkReferences habsent bytecode]
  · intro hlibs hf
    unfold ContractDeployment.linkBytecode
    rw [List.length_map]
    exact cd_linkAllRefs_length libs hlibs bytecode.length linkReferences hf
      bytecode rfl

theorem link_bytecode_spec_witness :
    (ContractDeployment.linkBytecode
        "0011223344556677889900112233445566778899".data
        [("file.sol", [("MyLib", [⟨0, 20⟩])])]
        [("MyLib", "0xABCDEFABCDEFABCDEFABCDEFABCDEFABCDEFABCD".data)]).length
      = "0011223344556677889900112233445566778899".data.length ∧
    ContractDeployment.linkBytecode "0xAB".data
        [("file.sol", [("OtherLib", [⟨0, 20⟩])])]
        [("MyLib", "0xABCDEFABCDEFABCDEFABCDEFABCDEFABCDEFABCD".data)]
      = "0xAB".data.map Char.toLower :=
  ⟨(link_bytecode_spec "0011223344556677889900112233445566778899".data [] ⟨0, 0⟩
      [("file.sol", [("MyLib", [⟨0, 20⟩])])]
      [("MyLib", "0xABCDEFABCDEFABCDEFABCDEFABCDEFABCDEFABCD".data)]).2.2.2
      (by decide) (by decide),
   (link_bytecode_spec "0xAB".data [] ⟨0, 0⟩
      [("file.sol", [("OtherLib", [⟨0, 20⟩])])]
      [("MyLib", "0xABCDEFABCDEFABCDEFABCDEFABCDEFABCDEFABCD".data)]).2.2.1
      (by decide)⟩

/-!
## Helper lemmas: compiler-configuration overrides
-/

open HardhatConfig in
theorem hc_firstOccur_decomp (pat : List Char) :
    ∀ (s : List Char) (i : Nat), firstOccur pat s = some i →
      s = s.take i ++ pat ++ s.drop (i + pat.length) := by
  intro s
  induction s with
  | nil =>
    intro i h
    simp only [firstOccur] at h
    by_cases hpat : pat = []
    · rw [if_pos hpat] at h
      injection h with h0
      subst h0
      simp [hpat]
    · rw [if_neg hpat] at h
      exact absurd h (by simp)
  | cons c rest ih =>
    intro i h
    simp only [firstOccur] at h
    by_cases htake : (c :: rest).take pat.length = pat
    · rw [if_pos htake] at h
      injection h with h0
      subst h0
      simp only [List.take_zero, List.nil_append, Nat.zero_add]
      nth_rewrite 1 [← htake]
      exact (List.take_append_drop pat.length (c :: rest)).symm
    · rw [if_neg htake] at h
      cases hj : firstOccur pat rest with
      | none => rw [hj] at h; exact absurd h (by simp)
      | some j =>
        rw [hj] at h
        simp only [Option.map_some', Option.some.injEq] at h
        subst h
        have hrest := ih j hj
        conv_lhs => rw [hrest]
        rw [List.take_succ_cons]
        have hidx : j + 1 + pat.length = (j + pat.length) + 1 := by omega
        rw [hidx, List.drop_succ_cons]
        simp

open HardhatConfig in
theorem hc_mem_take_append (x : List Char) (y : Char) (z : List Char) (k : Nat)
    (h : x.length < k) : y ∈ (x ++ y :: z).take k := by
  rw [List.take_append_eq_append_take]
  refine List.mem_append.mpr (Or.inr ?_)
  have hk : k - x.length = (k - x.length - 1) + 1 := by omega
  rw [hk, List.take_succ_cons]
  exact List.mem_cons_self y _

open HardhatConfig in
theorem hc_replaceFirst_lastN (s p : List Char) (k : Nat)
    (hk : ∀ c ∈ s.reverse.take k, c ≠ '/') :
    (replaceFirst s (p ++ ['/'])).reverse.take k = s.reverse.take k := by
  unfold replaceFirst
  cases hocc : firstOccur (p ++ ['/']) s with
  | none => rfl
  | some i =>
    have hdec := hc_firstOccur_decomp (p ++ ['/']) s i hocc
    set u := s.take i with hu
    set w := s.drop (i + (p ++ ['/']).length) with hw
    have hsrev : s.reverse = w.reverse ++ '/' :: (p.reverse ++ u.reverse) := by
      conv_lhs => rw [hdec]
      simp
    have hwlen : k ≤ w.length := by
      by_contra hlt
      push_neg at hlt
      have hmem : '/' ∈ s.reverse.take k := by
        rw [hsrev]
        exact hc_mem_take_append w.reverse '/' _ k (by simpa using hlt)
      exact hk '/' hmem rfl
    have h1 : (u ++ w).reverse.take k = w.reverse.take k := by
      rw [List.reverse_append]
      exact List.take_append_of_le_length (by simpa using hwlen)
    have h2 : s.reverse.take k = w.reverse.take k := by
      rw [hsrev]
      exact List.take_append_of_le_length (by simpa using hwlen)
    rw [h1, h2]

open HardhatConfig in
theorem hc_overrides_keys_ne (p : List Char) :
    replaceFirst hcKey1 (p ++ ['/']) ≠ replaceFirst hcKey2 (p ++ ['/']) := by
  intro h
  have h1 := hc_replaceFirst_lastN hcKey1 p 9 (by decide)
  have h2 := hc_replaceFirst_lastN hcKey2 p 9 (by decide)
  rw [h] at h1
  exact absurd (h1.symm.trans h2) (by decide)

open HardhatConfig in
theorem hc_recordSet_nil (k : List Char) (v : SolcConfig) :
    recordSet [] k v = [(k, v)] := by
  simp [recordSet]

open HardhatConfig in
theorem hc_recordSet_singleton_ne (k1 k2 : List Char) (v1 v2 : SolcConfig)
    (h : k2 ≠ k1) :
    recordSet [(k1, v1)] k2 v2 = [(k1, v1), (k2, v2)] := by
  simp [recordSet, h]

/-- C8: compiler configuration overrides: for every package name string,
`overrides packageName` returns a record with exactly one entry per key of
`contractSettings` (the two computed keys are always distinct), whose key
is that contract path with the first occurrence of the package name
followed by a slash removed, and whose value carries that contract's
configured compiler version and an optimizer setting with `enabled` true
and the configured runs count. -/
theorem solc_overrides_spec :
    ∀ packageName : List Char,
      HardhatConfig.overrides packageName =
        [(HardhatConfig.replaceFirst HardhatConfig.hcKey1 (packageName ++ ['/']),
          { version := "0.7.1",
            settings := { optimizer := { enabled := true, runs := some 1500 } } }),
         (HardhatConfig.replaceFirst HardhatConfig.hcKey2 (packageName ++ ['/']),
          { version := "0.7.1",
            settings := { optimizer := { enabled := true, runs := some 200 } } })] ∧
      HardhatConfig.replaceFirst HardhatConfig.hcKey1 (packageName ++ ['/'])
        ≠ HardhatConfig.replaceFirst HardhatConfig.hcKey2 (packageName ++ ['/']) := by
  intro p
  have hne := hc_overrides_keys_ne p
  refine ⟨?_, hne⟩
  simp only [HardhatConfig.overrides, HardhatConfig.contractSettings,
    List.foldl_cons, List.foldl_nil]
  rw [hc_recordSet_nil, hc_recordSet_singleton_ne _ _ _ _ (Ne.symm hne)]

end Koyo
